import Mathlib

/-!
Verification of the Mandelbrot escape-time kernel of
`3D-Mandelbrot-Explorer` (`src/mandelbrot.py`).

The Python program works with IEEE doubles; this development idealises
the arithmetic as exact rational arithmetic, representing a complex
number as a pair of rationals.  The escape test `abs(z) > 2` of the
source is expressed on the squared magnitude (`4 < |z|²`), which is
equivalent for exact arithmetic since both sides of `abs(z) > 2` are
non-negative; the bridging lemma `normSq_gt_four_iff_abs_gt_two` below
records this equivalence against the real square root.
-/

namespace Mandel

/-- A complex number, as a pair of exact rationals (idealising the
floating-point complex numbers of the Python source). -/
structure Cx where
  re : ℚ
  im : ℚ
deriving DecidableEq, Repr, Inhabited

/-- Complex addition. -/
def Cx.add (a b : Cx) : Cx := ⟨a.re + b.re, a.im + b.im⟩

/-- Complex multiplication. -/
def Cx.mul (a b : Cx) : Cx := ⟨a.re * b.re - a.im * b.im, a.re * b.im + a.im * b.re⟩

/-- `z**2` of the source. -/
def Cx.sq (a : Cx) : Cx := a.mul a

/-- Squared magnitude `|z|²`. -/
def Cx.normSq (a : Cx) : ℚ := a.re * a.re + a.im * a.im

/-- Complex conjugate. -/
def Cx.conj (a : Cx) : Cx := ⟨a.re, -a.im⟩

/-- The escape test of line 27 of the source, `abs(z) > 2`, expressed on
squared magnitudes. -/
def Cx.escapes (z : Cx) : Prop := 4 < z.normSq

instance (z : Cx) : Decidable z.escapes :=
  inferInstanceAs (Decidable (4 < z.normSq))

/-- The loop body of `mandelbrot` (source lines 26–29): `z` is the current
iterate, `n` the current loop index, `fuel` the number of remaining loop
iterations (`n + fuel` stays equal to `max_iter`).  Each iteration first
tests `abs(z) > 2` and returns `n` on escape, otherwise updates
`z ← z² + c`. -/
def mandelbrotLoop (c : Cx) : Cx → ℕ → ℕ → ℕ
  | _, n, 0 => n
  | z, n, fuel + 1 =>
      if 4 < z.normSq then n else mandelbrotLoop c ((z.sq).add c) (n + 1) fuel

/-- `mandelbrot(c, max_iter)` of the source (lines 24–30): start from
`z = c`, loop index `0`, with `max_iter` iterations available.  When the
fuel runs out the loop index equals `max_iter`, matching the final
`return max_iter` of the source. -/
def mandelbrot (c : Cx) (max_iter : ℕ) : ℕ :=
  mandelbrotLoop c c 0 max_iter

/-- The orbit `z₀ = c`, `z_{k+1} = z_k² + c` named by the specification. -/
def zseq (c : Cx) : ℕ → Cx
  | 0 => c
  | n + 1 => ((zseq c n).sq).add c

/-! ### Basic facts about the loop -/

theorem mandelbrotLoop_le (c : Cx) :
    ∀ (fuel : ℕ) (z : Cx) (n : ℕ), mandelbrotLoop c z n fuel ≤ n + fuel := by
  intro fuel
  induction fuel with
  | zero => intro z n; simp [mandelbrotLoop]
  | succ f ih =>
      intro z n
      rw [mandelbrotLoop]
      split
      · omega
      · have := ih ((z.sq).add c) (n + 1)
        omega

theorem le_mandelbrotLoop (c : Cx) :
    ∀ (fuel : ℕ) (z : Cx) (n : ℕ), n ≤ mandelbrotLoop c z n fuel := by
  intro fuel
  induction fuel with
  | zero => intro z n; simp [mandelbrotLoop]
  | succ f ih =>
      intro z n
      rw [mandelbrotLoop]
      split
      · omega
      · have := ih ((z.sq).add c) (n + 1)
        omega

theorem mandelbrotLoop_escape (c : Cx) :
    ∀ (fuel k : ℕ), mandelbrotLoop c (zseq c k) k fuel < k + fuel →
      (zseq c (mandelbrotLoop c (zseq c k) k fuel)).escapes := by
  intro fuel
  induction fuel with
  | zero => intro k h; simp [mandelbrotLoop] at h
  | succ f ih =>
      intro k h
      rw [mandelbrotLoop] at h ⊢
      by_cases hz : 4 < (zseq c k).normSq
      · simp only [if_pos hz]
        exact hz
      · have hrec : ((zseq c k).sq).add c = zseq c (k + 1) := rfl
        simp only [if_neg hz, hrec] at h ⊢
        have := ih (k + 1) (by omega)
        exact this

theorem mandelbrotLoop_min (c : Cx) :
    ∀ (fuel k j : ℕ), k ≤ j → j < mandelbrotLoop c (zseq c k) k fuel →
      ¬ (zseq c j).escapes := by
  intro fuel
  induction fuel with
  | zero =>
      intro k j hkj hlt
      simp [mandelbrotLoop] at hlt
      omega
  | succ f ih =>
      intro k j hkj hlt
      rw [mandelbrotLoop] at hlt
      by_cases hz : 4 < (zseq c k).normSq
      · simp [hz] at hlt; omega
      · have hrec : ((zseq c k).sq).add c = zseq c (k + 1) := rfl
        simp only [if_neg hz, hrec] at hlt
        rcases Nat.eq_or_lt_of_le hkj with h | h
        · subst h; simpa [Cx.escapes] using hz
        · exact ih (k + 1) j h hlt

theorem mandelbrotLoop_full (c : Cx) :
    ∀ (fuel k : ℕ), (∀ j, k ≤ j → j < k + fuel → ¬ (zseq c j).escapes) →
      mandelbrotLoop c (zseq c k) k fuel = k + fuel := by
  intro fuel
  induction fuel with
  | zero => intro k _; simp [mandelbrotLoop]
  | succ f ih =>
      intro k hno
      rw [mandelbrotLoop]
      have hz : ¬ 4 < (zseq c k).normSq := by
        have := hno k (le_refl k) (by omega)
        simpa [Cx.escapes] using this
      have hrec : ((zseq c k).sq).add c = zseq c (k + 1) := rfl
      simp only [if_neg hz, hrec]
      have := ih (k + 1) (fun j h1 h2 => hno j (by omega) (by omega))
      omega

theorem mandelbrot_eq_loop (c : Cx) (M : ℕ) :
    mandelbrot c M = mandelbrotLoop c (zseq c 0) 0 M := rfl

/-! ### The grid (source lines 13–21) -/

/-- `width, height = 400, 400` (source line 13). -/
def width : ℕ := 400

/-- See `width`. -/
def height : ℕ := 400

/-- `max_iterations = 50` (source line 15). -/
def max_iterations : ℕ := 50

/-- `np.linspace(lo, hi, n)`: `n` evenly spaced samples from `lo` to `hi`
inclusive; numpy returns `[]` for `n = 0` and `[lo]` for `n = 1`. -/
def linspace (lo hi : ℚ) (n : ℕ) : List ℚ :=
  if n = 0 then []
  else if n = 1 then [lo]
  else (List.range n).map fun i : ℕ => lo + (hi - lo) * (i : ℚ) / ((n : ℚ) - 1)

/-- `x = np.linspace(-2, 2, width)` (source line 18). -/
def x : List ℚ := linspace (-2) 2 width

/-- `y = np.linspace(-2, 2, height)` (source line 19). -/
def y : List ℚ := linspace (-2) 2 height

/-- The meshgrid combination `C = X + 1j * Y` (source lines 20–21), as a
function of the two coordinate sequences: row `j`, column `i` holds
`x[i] + 1j * y[j]`. -/
def gridC (xv yv : List ℚ) : List (List Cx) :=
  yv.map fun b => xv.map fun a => ⟨a, b⟩

/-- The sample grid `C` of the source. -/
def C : List (List Cx) := gridC x y

/-! ### The escape field (source lines 33–36)

The source allocates `np.zeros((height, width))` and fills it in place
with two nested loops (`i` over columns outermost, `j` over rows
innermost), writing `mandelbrot_set[j, i] = mandelbrot(C[j, i],
max_iterations)`.  We model the mutable fill faithfully: a zero matrix,
an in-place single-cell update, and a left fold over the list of visited
`(i, j)` pairs in the source's loop order. -/

/-- `np.zeros((h, w))` as a list of `h` rows of `w` zeros. -/
def zerosMat (h w : ℕ) : List (List ℕ) :=
  List.replicate h (List.replicate w 0)

/-- The in-place write `m[j, i] = v`. -/
def setEntry (m : List (List ℕ)) (j i : ℕ) (v : ℕ) : List (List ℕ) :=
  m.set j ((m.getD j []).set i v)

/-- The `(i, j)` pairs visited by the source's nested loops, in source
order: `i` (column) outermost, `j` (row) innermost. -/
def loopOrder (w h : ℕ) : List (ℕ × ℕ) :=
  (List.range w).flatMap fun i => (List.range h).map fun j => (i, j)

/-- The nested fill loop (source lines 34–36), generalised over the
starting matrix and the order in which the grid cells are visited:
each visited cell `(i, j)` receives `mandelbrot(x[i] + 1j*y[j],
max_iterations)`. -/
def fillField (xv yv : List ℚ) (M : ℕ) (init : List (List ℕ))
    (order : List (ℕ × ℕ)) : List (List ℕ) :=
  order.foldl
    (fun m p => setEntry m p.2 p.1 (mandelbrot ⟨xv.getD p.1 0, yv.getD p.2 0⟩ M))
    init

/-- `mandelbrot_set` of the source (lines 33–36): the zero matrix filled
by the nested loops in source order. -/
def mandelbrot_set : List (List ℕ) :=
  fillField x y max_iterations (zerosMat height width) (loopOrder width height)

/-- The Escape Field as the specification describes it: a pure,
independent map of the Evaluator over the Sample Grid. -/
def escapeField (xv yv : List ℚ) (M : ℕ) : List (List ℕ) :=
  (gridC xv yv).map fun row => row.map fun c => mandelbrot c M

/-- Matrix shape: `h` rows, every row of length `w`. -/
def MatShape (m : List (List ℕ)) (h w : ℕ) : Prop :=
  m.length = h ∧ ∀ j < h, (m.getD j []).length = w

/-- An evaluation order visits only grid cells, and visits every one. -/
def Covers (order : List (ℕ × ℕ)) (w h : ℕ) : Prop :=
  (∀ p ∈ order, p.1 < w ∧ p.2 < h) ∧ ∀ i < w, ∀ j < h, (i, j) ∈ order

/-! ### List helpers -/

theorem getD_set_self {α : Type} (l : List α) (n : ℕ) (a d : α) (h : n < l.length) :
    (l.set n a).getD n d = a := by
  rw [List.getD_eq_getElem?_getD, List.getElem?_set_self h]
  rfl

theorem getD_set_ne {α : Type} (l : List α) (m n : ℕ) (a d : α) (h : m ≠ n) :
    (l.set m a).getD n d = l.getD n d := by
  rw [List.getD_eq_getElem?_getD, List.getD_eq_getElem?_getD, List.getElem?_set_ne h]

theorem getD_range_map {α : Type} (f : ℕ → α) (n k : ℕ) (d : α) (h : k < n) :
    (((List.range n).map f).getD k d) = f k := by
  rw [List.getD_eq_getElem _ _ (by simpa using h)]
  simp

/-! ### Shape preservation of the fill loop -/

theorem setEntry_shape {m : List (List ℕ)} {h w : ℕ} (hs : MatShape m h w)
    (j i v : ℕ) : MatShape (setEntry m j i v) h w := by
  obtain ⟨hlen, hrow⟩ := hs
  refine ⟨by simp [setEntry, hlen], ?_⟩
  intro j' hj'
  by_cases hjm : j < m.length
  · by_cases hjj : j' = j
    · subst hjj
      rw [setEntry, getD_set_self _ _ _ _ hjm, List.length_set]
      exact hrow j' hj'
    · rw [setEntry, getD_set_ne _ _ _ _ _ (fun hj => hjj hj.symm)]
      exact hrow j' hj'
  · rw [setEntry, List.set_eq_of_length_le (by omega)]
    exact hrow j' hj'

theorem fillField_shape (xv yv : List ℚ) (M : ℕ) :
    ∀ (order : List (ℕ × ℕ)) (init : List (List ℕ)) {h w : ℕ},
      MatShape init h w → MatShape (fillField xv yv M init order) h w := by
  intro order
  induction order with
  | nil => intro init h w hs; exact hs
  | cons p rest ih =>
      intro init h w hs
      exact ih _ (setEntry_shape hs p.2 p.1 _)

/-- The value a finished fill holds at a visited cell: each write to a
cell depends only on the cell itself, so the last write (whatever the
order) stores the Evaluator's value there. -/
theorem fillField_getD (xv yv : List ℚ) (M : ℕ) :
    ∀ (order : List (ℕ × ℕ)) (init : List (List ℕ)),
      MatShape init yv.length xv.length →
      (∀ p ∈ order, p.1 < xv.length ∧ p.2 < yv.length) →
      ∀ i j, (i, j) ∈ order →
        ((fillField xv yv M init order).getD j []).getD i 0
          = mandelbrot ⟨xv.getD i 0, yv.getD j 0⟩ M := by
  intro order
  induction order using List.reverseRecOn with
  | nil => intro init _ _ i j hmem; simp at hmem
  | append_singleton os p ih =>
      intro init hinit hbound i j hmem
      have hstep : fillField xv yv M init (os ++ [p])
          = setEntry (fillField xv yv M init os) p.2 p.1
              (mandelbrot ⟨xv.getD p.1 0, yv.getD p.2 0⟩ M) := by
        simp [fillField]
      have hshape : MatShape (fillField xv yv M init os) yv.length xv.length :=
        fillField_shape xv yv M os init hinit
      obtain ⟨hlen, hrow⟩ := hshape
      by_cases hp : (i, j) = p
      · have hi : i < xv.length := by
          have := hbound p (by simp)
          rw [← hp] at this; exact this.1
        have hj : j < yv.length := by
          have := hbound p (by simp)
          rw [← hp] at this; exact this.2
        rw [hstep, ← hp, setEntry, getD_set_self _ _ _ _ (by omega),
          getD_set_self _ _ _ _ (by rw [hrow j (by omega)]; omega)]
      · have hmem' : (i, j) ∈ os := by
          rcases List.mem_append.mp hmem with h | h
          · exact h
          · exact absurd (by simpa using h) hp
        have hbound' : ∀ q ∈ os, q.1 < xv.length ∧ q.2 < yv.length :=
          fun q hq => hbound q (List.mem_append.mpr (Or.inl hq))
        have hval := ih init hinit hbound' i j hmem'
        rw [hstep, setEntry]
        by_cases hjj : p.2 = j
        · have hii : p.1 ≠ i := by
            intro hi
            exact hp (by rw [← hi, ← hjj])
          have hj : j < yv.length := (hbound' _ hmem').2
          rw [← hjj] at hval ⊢
          rw [getD_set_self _ _ _ _ (by omega), getD_set_ne _ _ _ _ _ hii]
          exact hval
        · rw [getD_set_ne _ _ _ _ _ hjj]
          exact hval

/-! ### The pure field: shape and entries -/

theorem escapeField_shape (xv yv : List ℚ) (M : ℕ) :
    MatShape (escapeField xv yv M) yv.length xv.length := by
  refine ⟨by simp [escapeField, gridC], ?_⟩
  intro j hj
  rw [escapeField, gridC, List.map_map,
    List.getD_eq_getElem _ _ (by simpa using hj)]
  simp

theorem escapeField_getD (xv yv : List ℚ) (M : ℕ) (i j : ℕ)
    (hi : i < xv.length) (hj : j < yv.length) :
    ((escapeField xv yv M).getD j []).getD i 0
      = mandelbrot ⟨xv.getD i 0, yv.getD j 0⟩ M := by
  have hj' : j < (escapeField xv yv M).length := by
    simpa [escapeField, gridC] using hj
  rw [List.getD_eq_getElem _ _ hj']
  simp only [escapeField, gridC, List.getElem_map, List.map_map]
  rw [List.getD_eq_getElem _ _ (by simpa using hi)]
  simp only [List.getElem_map, Function.comp_apply]
  rw [List.getD_eq_getElem _ _ hi, List.getD_eq_getElem _ _ hj]

theorem mat_ext {a b : List (List ℕ)} {h w : ℕ}
    (ha : MatShape a h w) (hb : MatShape b h w)
    (hpt : ∀ j < h, ∀ i < w, (a.getD j []).getD i 0 = (b.getD j []).getD i 0) :
    a = b := by
  obtain ⟨hal, har⟩ := ha
  obtain ⟨hbl, hbr⟩ := hb
  apply List.ext_getElem (by omega)
  intro j hja hjb
  have hjh : j < h := by omega
  apply List.ext_getElem
  · rw [← List.getD_eq_getElem a [] hja, ← List.getD_eq_getElem b [] hjb,
      har j hjh, hbr j hjh]
  · intro i hia hib
    have hiw : i < w := by
      rw [← List.getD_eq_getElem a [] hja, har j hjh] at hia
      exact hia
    have := hpt j hjh i hiw
    rw [List.getD_eq_getElem _ _ hja, List.getD_eq_getElem _ _ hjb] at this
    rw [List.getD_eq_getElem _ _ hia, List.getD_eq_getElem _ _ hib] at this
    exact this

/-- Core refinement: the in-place nested-loop fill of the source equals
the pure map the specification describes, for any starting matrix of the
right shape and any visiting order that covers the grid. -/
theorem fillField_eq_escapeField (xv yv : List ℚ) (M : ℕ)
    (init : List (List ℕ)) (order : List (ℕ × ℕ))
    (hinit : MatShape init yv.length xv.length)
    (hcov : Covers order xv.length yv.length) :
    fillField xv yv M init order = escapeField xv yv M := by
  apply mat_ext (fillField_shape xv yv M order init hinit)
    (escapeField_shape xv yv M)
  intro j hj i hi
  rw [fillField_getD xv yv M order init hinit hcov.1 i j (hcov.2 i hi j hj),
    escapeField_getD xv yv M i j hi hj]

/-! ### The concrete configuration -/

theorem loopOrder_covers (w h : ℕ) : Covers (loopOrder w h) w h := by
  constructor
  · intro p hp
    simp only [loopOrder, List.mem_flatMap, List.mem_map, List.mem_range] at hp
    obtain ⟨i, hi, j, hj, rfl⟩ := hp
    exact ⟨hi, hj⟩
  · intro i hi j hj
    simp only [loopOrder, List.mem_flatMap, List.mem_map, List.mem_range]
    exact ⟨i, hi, j, hj, rfl⟩

theorem zerosMat_shape (h w : ℕ) : MatShape (zerosMat h w) h w := by
  refine ⟨by simp [zerosMat], ?_⟩
  intro j hj
  rw [zerosMat, List.getD_eq_getElem _ _ (by simpa using hj)]
  simp

theorem linspace_length (lo hi : ℚ) (n : ℕ) : (linspace lo hi n).length = n := by
  rw [linspace]
  split
  · simp [*]
  · split
    · simp [*]
    · simp

theorem linspace_getD (lo hi : ℚ) (n k : ℕ) (hn : 2 ≤ n) (hk : k < n) :
    (linspace lo hi n).getD k 0 = lo + (hi - lo) * (k : ℚ) / ((n : ℚ) - 1) := by
  rw [linspace, if_neg (by omega), if_neg (by omega)]
  exact getD_range_map _ n k 0 hk

theorem x_length : x.length = width := linspace_length (-2) 2 width

theorem y_length : y.length = height := linspace_length (-2) 2 height

theorem mandelbrot_set_eq_escapeField :
    mandelbrot_set = escapeField x y max_iterations := by
  apply fillField_eq_escapeField
  · rw [x_length, y_length]; exact zerosMat_shape height width
  · rw [x_length, y_length]; exact loopOrder_covers width height

/-! ### Further helper lemmas -/

theorem normSq_nonneg (z : Cx) : 0 ≤ z.normSq :=
  add_nonneg (mul_self_nonneg z.re) (mul_self_nonneg z.im)

/-- The escape test `abs(z) > 2` of the source is equivalent to the
squared-magnitude test `4 < |z|²` used throughout this development. -/
theorem normSq_gt_four_iff_abs_gt_two (z : Cx) :
    4 < z.normSq ↔ 2 < Real.sqrt ((z.normSq : ℚ) : ℝ) := by
  rw [Real.lt_sqrt (by norm_num)]
  constructor
  · intro h
    have : (4 : ℝ) < ((z.normSq : ℚ) : ℝ) := by exact_mod_cast h
    linarith [this]
  · intro h
    have : (4 : ℝ) < ((z.normSq : ℚ) : ℝ) := by nlinarith [h]
    exact_mod_cast this

theorem mandelbrotLoop_zero_cx :
    ∀ (fuel n : ℕ), mandelbrotLoop ⟨0, 0⟩ ⟨0, 0⟩ n fuel = n + fuel := by
  intro fuel
  induction fuel with
  | zero => intro n; simp [mandelbrotLoop]
  | succ f ih =>
      intro n
      rw [mandelbrotLoop]
      have h4 : ¬ (4 : ℚ) < (Cx.mk 0 0).normSq := by norm_num [Cx.normSq]
      have hz : ((Cx.mk 0 0).sq).add ⟨0, 0⟩ = ⟨0, 0⟩ := by
        simp [Cx.sq, Cx.mul, Cx.add]
      rw [if_neg h4, hz, ih]
      omega

theorem conj_add (a b : Cx) : (a.add b).conj = (a.conj).add (b.conj) := by
  simp only [Cx.add, Cx.conj, Cx.mk.injEq, true_and]
  ring

theorem conj_sq (a : Cx) : (a.sq).conj = (a.conj).sq := by
  simp only [Cx.sq, Cx.mul, Cx.conj, Cx.mk.injEq]
  constructor <;> ring

theorem normSq_conj (a : Cx) : a.conj.normSq = a.normSq := by
  simp only [Cx.normSq, Cx.conj]
  ring

theorem mandelbrotLoop_conj (c : Cx) :
    ∀ (fuel : ℕ) (z : Cx) (n : ℕ),
      mandelbrotLoop c.conj z.conj n fuel = mandelbrotLoop c z n fuel := by
  intro fuel
  induction fuel with
  | zero => intro z n; simp [mandelbrotLoop]
  | succ f ih =>
      intro z n
      rw [mandelbrotLoop, mandelbrotLoop, normSq_conj]
      by_cases hz : 4 < z.normSq
      · simp [hz]
      · simp only [if_neg hz]
        have harg : ((z.conj.sq)).add c.conj = (((z.sq)).add c).conj := by
          rw [conj_add, conj_sq]
        rw [harg, ih]

/-- Evenly spaced samples over a symmetric interval `[-a, a]` are
antisymmetric under reversal of the index. -/
theorem linspace_symm (a : ℚ) (n j : ℕ) (hn : 2 ≤ n) (hj : j < n) :
    (linspace (-a) a n).getD (n - 1 - j) 0 = -((linspace (-a) a n).getD j 0) := by
  rw [linspace_getD _ _ _ _ hn (by omega), linspace_getD _ _ _ _ hn hj]
  have hne : ((n : ℚ) - 1) ≠ 0 := by
    have h2 : (2 : ℚ) ≤ (n : ℚ) := by exact_mod_cast hn
    intro h0
    linarith
  have hcast : ((n - 1 - j : ℕ) : ℚ) = (n : ℚ) - 1 - (j : ℚ) := by
    have hidx : n - 1 - j = n - (j + 1) := by omega
    rw [hidx, Nat.cast_sub (by omega)]
    push_cast
    ring_nf
  rw [hcast]
  field_simp
  ring_nf

/-- The whole pipeline as a function of its configuration: build the two
coordinate sequences, then run the source's fill loop over the grid in
the source's visiting order, starting from a given matrix (the source
starts from `np.zeros((height, width))`). -/
def pipeline (lo hi : ℚ) (w h M : ℕ) (init : List (List ℕ)) : List (List ℕ) :=
  fillField (linspace lo hi w) (linspace lo hi h) M init (loopOrder w h)

theorem pipeline_eq_escapeField (lo hi : ℚ) (w h M : ℕ)
    (init : List (List ℕ)) (hinit : MatShape init h w) :
    pipeline lo hi w h M init
      = escapeField (linspace lo hi w) (linspace lo hi h) M := by
  apply fillField_eq_escapeField
  · rw [linspace_length, linspace_length]; exact hinit
  · rw [linspace_length, linspace_length]; exact loopOrder_covers w h

/-! ### The claims -/

/-- **C1**: for every complex `c` and bound `M`, `mandelbrot(c, M)` is
the smallest `n ∈ [0, M)` at which the orbit `z₀ = c`,
`z_{k+1} = z_k² + c` satisfies `|z_n| > 2` (the test is applied before
each update, on the first iteration to `c` itself), and `M` when no such
`n` exists. -/
theorem mandelbrot_escape_time_spec (c : Cx) (M : ℕ) :
    (∃ n, n < M ∧ (zseq c n).escapes ∧ mandelbrot c M = n ∧
      ∀ k < n, ¬ (zseq c k).escapes) ∨
    ((∀ n < M, ¬ (zseq c n).escapes) ∧ mandelbrot c M = M) := by
  have hle : mandelbrot c M ≤ M := by
    simpa [mandelbrot_eq_loop] using mandelbrotLoop_le c M (zseq c 0) 0
  rcases Nat.lt_or_ge (mandelbrot c M) M with hlt | hge
  · left
    refine ⟨mandelbrot c M, hlt, ?_, rfl, ?_⟩
    · have := mandelbrotLoop_escape c M 0
        (by simpa [mandelbrot_eq_loop] using hlt)
      simpa [mandelbrot_eq_loop] using this
    · intro k hk
      exact mandelbrotLoop_min c M 0 k (Nat.zero_le k)
        (by simpa [mandelbrot_eq_loop] using hk)
  · right
    have heq : mandelbrot c M = M := le_antisymm hle hge
    refine ⟨?_, heq⟩
    intro n hn
    exact mandelbrotLoop_min c M 0 n (Nat.zero_le n)
      (by rw [← mandelbrot_eq_loop, heq]; exact hn)

/-- Concrete instance of C1 at `c = 3`, `M = 1`: the point escapes at
once, so the evaluator returns `0`. -/
theorem mandelbrot_escape_time_spec_witness : mandelbrot ⟨3, 0⟩ 1 = 0 := by
  rcases mandelbrot_escape_time_spec ⟨3, 0⟩ 1 with ⟨n, hn, _, heq, _⟩ | ⟨hno, _⟩
  · omega
  · exact absurd (by norm_num [zseq, Cx.escapes, Cx.normSq]) (hno 0 (by decide))

/-- **C2**: the Escape Field has `height` rows of `width` entries, entry
`(j, i)` equals `mandelbrot(x[i] + 1j*y[j], max_iterations)`, and every
grid-covering evaluation order produces the same field as the source's
nested loops (a pure, independent map over the grid). -/
theorem escape_field_grid_spec :
    mandelbrot_set.length = height ∧
    (∀ j < height, (mandelbrot_set.getD j []).length = width) ∧
    (∀ j < height, ∀ i < width,
      (mandelbrot_set.getD j []).getD i 0
        = mandelbrot ⟨x.getD i 0, y.getD j 0⟩ max_iterations) ∧
    ∀ order : List (ℕ × ℕ), Covers order width height →
      fillField x y max_iterations (zerosMat height width) order
        = mandelbrot_set := by
  have hshape : MatShape mandelbrot_set height width := by
    rw [mandelbrot_set_eq_escapeField]
    have h := escapeField_shape x y max_iterations
    rwa [x_length, y_length] at h
  refine ⟨hshape.1, hshape.2, ?_, ?_⟩
  · intro j hj i hi
    rw [mandelbrot_set_eq_escapeField,
      escapeField_getD x y max_iterations i j
        (by rw [x_length]; exact hi) (by rw [y_length]; exact hj)]
  · intro order hcov
    rw [mandelbrot_set_eq_escapeField]
    apply fillField_eq_escapeField
    · rw [x_length, y_length]; exact zerosMat_shape height width
    · rw [x_length, y_length]; exact hcov

/-- Concrete instance of C2 at row `0`, column `0`, and at the source's
own loop order. -/
theorem escape_field_grid_spec_witness :
    mandelbrot_set.length = height ∧
    (mandelbrot_set.getD 0 []).length = width ∧
    (mandelbrot_set.getD 0 []).getD 0 0
      = mandelbrot ⟨x.getD 0 0, y.getD 0 0⟩ max_iterations ∧
    fillField x y max_iterations (zerosMat height width)
      (loopOrder width height) = mandelbrot_set := by
  obtain ⟨h1, h2, h3, h4⟩ := escape_field_grid_spec
  exact ⟨h1, h2 0 (by decide), h3 0 (by decide) 0 (by decide),
    h4 _ (loopOrder_covers width height)⟩

/-- **C3**: the evaluator's result always lies in `[0, M]` (it is a
natural number, so `0 ≤` is inherent), and consequently every entry of
the Escape Field lies in `[0, max_iterations]` (entries read with
defaults outside the grid are `0`, also in range). -/
theorem mandelbrot_result_range (c : Cx) (M : ℕ) :
    mandelbrot c M ≤ M ∧
    ∀ j i : ℕ, (mandelbrot_set.getD j []).getD i 0 ≤ max_iterations := by
  constructor
  · simpa [mandelbrot_eq_loop] using mandelbrotLoop_le c M (zseq c 0) 0
  · intro j i
    rw [mandelbrot_set_eq_escapeField]
    by_cases hj : j < height
    · by_cases hi : i < width
      · rw [escapeField_getD x y max_iterations i j
          (by rw [x_length]; exact hi) (by rw [y_length]; exact hj)]
        simpa [mandelbrot_eq_loop] using
          mandelbrotLoop_le ⟨x.getD i 0, y.getD j 0⟩ max_iterations
            (zseq ⟨x.getD i 0, y.getD j 0⟩ 0) 0
      · have hrow := (escapeField_shape x y max_iterations).2 j
          (by rw [y_length]; exact hj)
        rw [List.getD_eq_default _ _ (by rw [hrow, x_length]; omega)]
        exact Nat.zero_le _
    · have hrow0 : (escapeField x y max_iterations).getD j [] = [] :=
        List.getD_eq_default _ _
          (by rw [(escapeField_shape x y max_iterations).1, y_length]; omega)
      have hnil : ([] : List ℕ).getD i 0 = 0 := by cases i <;> rfl
      rw [hrow0, hnil]
      exact Nat.zero_le _

/-- Concrete instance of C3 at `c = 2 + 2i`, `M = 3` and entry `(0, 0)`. -/
theorem mandelbrot_result_range_witness :
    mandelbrot ⟨2, 2⟩ 3 ≤ 3 ∧
    (mandelbrot_set.getD 0 []).getD 0 0 ≤ max_iterations :=
  ⟨(mandelbrot_result_range ⟨2, 2⟩ 3).1, (mandelbrot_result_range ⟨2, 2⟩ 3).2 0 0⟩

/-- **C4** counterexample: the claim says `mandelbrot(−1−1i, 5) = 1`,
but running the source's recurrence gives `z₀ = −1−1i` (no escape),
`z₁ = −1+i` (no escape), `z₂ = −1−3i` with `|z₂|² = 10 > 4`, so the
evaluator returns `2`, not `1`. -/
theorem small_scenario_escape_not_one : ¬ mandelbrot ⟨-1, -1⟩ 5 = 1 := by
  norm_num [mandelbrot, mandelbrotLoop, Cx.sq, Cx.mul, Cx.add, Cx.normSq]

/-- **C4** amended: with width = height = 3 on `[−1, 1]`, the grid
points are the 3×3 combinations of `{−1, 0, 1}`, and
`c = −1−1i` escapes at iteration `2` (not `1`): `mandelbrot(−1−1i, 5) = 2`. -/
theorem small_scenario_amended :
    linspace (-1) 1 3 = [-1, 0, 1] ∧
    gridC (linspace (-1) 1 3) (linspace (-1) 1 3) =
      [[⟨-1, -1⟩, ⟨0, -1⟩, ⟨1, -1⟩],
       [⟨-1, 0⟩, ⟨0, 0⟩, ⟨1, 0⟩],
       [⟨-1, 1⟩, ⟨0, 1⟩, ⟨1, 1⟩]] ∧
    mandelbrot ⟨-1, -1⟩ 5 = 2 := by
  have h3 : linspace (-1) 1 3 = [-1, 0, 1] := by
    rw [linspace, if_neg (by norm_num), if_neg (by norm_num),
      show List.range 3 = [0, 1, 2] from rfl]
    norm_num
  refine ⟨h3, ?_, ?_⟩
  · rw [gridC, h3]
    norm_num
  · norm_num [mandelbrot, mandelbrotLoop, Cx.sq, Cx.mul, Cx.add, Cx.normSq]

/-- **C5**: any point with `|c| > 2` (i.e. `|c|² > 4`) escapes before
the first update, so the evaluator returns `0` for every bound `M ≥ 1`. -/
theorem mandelbrot_immediate_escape (c : Cx) (M : ℕ)
    (hc : 4 < c.normSq) (hM : 1 ≤ M) : mandelbrot c M = 0 := by
  obtain ⟨f, rfl⟩ : ∃ f, M = f + 1 := ⟨M - 1, by omega⟩
  rw [mandelbrot, mandelbrotLoop, if_pos hc]

/-- Concrete instance of C5 at `c = 3`, `M = 1`. -/
theorem mandelbrot_immediate_escape_witness :
    4 < (Cx.mk 3 0).normSq ∧ 1 ≤ 1 ∧ mandelbrot ⟨3, 0⟩ 1 = 0 :=
  ⟨by norm_num [Cx.normSq], by norm_num,
    mandelbrot_immediate_escape ⟨3, 0⟩ 1 (by norm_num [Cx.normSq]) (by norm_num)⟩

/-- **C6**: the origin never escapes — the iterate stays `0` forever —
so the evaluator exhausts its bound and returns `M`, for every `M`. -/
theorem mandelbrot_zero_never_escapes (M : ℕ) : mandelbrot ⟨0, 0⟩ M = M := by
  have h := mandelbrotLoop_zero_cx M 0
  simpa [mandelbrot] using h

/-- **C7**: for fixed `c` the evaluator is monotone in the iteration
bound: `M₁ ≤ M₂` implies `mandelbrot(c, M₁) ≤ mandelbrot(c, M₂)`. -/
theorem mandelbrot_mono_bound (c : Cx) (M₁ M₂ : ℕ) (h : M₁ ≤ M₂) :
    mandelbrot c M₁ ≤ mandelbrot c M₂ := by
  by_cases hcase : M₁ ≤ mandelbrot c M₂
  · have h1 : mandelbrot c M₁ ≤ M₁ := by
      simpa [mandelbrot_eq_loop] using mandelbrotLoop_le c M₁ (zseq c 0) 0
    omega
  · push_neg at hcase
    by_contra hcon
    push_neg at hcon
    have hesc : (zseq c (mandelbrot c M₂)).escapes := by
      have := mandelbrotLoop_escape c M₂ 0
        (by simpa [mandelbrot_eq_loop] using lt_of_lt_of_le hcase h)
      simpa [mandelbrot_eq_loop] using this
    have hmin : ¬ (zseq c (mandelbrot c M₂)).escapes :=
      mandelbrotLoop_min c M₁ 0 _ (Nat.zero_le _)
        (by simpa [mandelbrot_eq_loop] using hcon)
    exact hmin hesc

/-- Concrete instance of C7 at `c = 1 + 1i`, bounds `2 ≤ 5`. -/
theorem mandelbrot_mono_bound_witness :
    2 ≤ 5 ∧ mandelbrot ⟨1, 1⟩ 2 ≤ mandelbrot ⟨1, 1⟩ 5 :=
  ⟨by decide, mandelbrot_mono_bound ⟨1, 1⟩ 2 5 (by decide)⟩

/-- **C8** counterexample: for a single sample (`N = 1`) `np.linspace`
returns `[lo]`, so the last element (index `N − 1 = 0`) is `lo`, not
`hi`: at `lo = 0`, `hi = 1` the produced sequence is `[0]` whose last
element differs from `1`. -/
theorem linspace_single_sample_last_ne_hi :
    linspace 0 1 1 = [0] ∧ ¬ (linspace 0 1 1).getD (1 - 1) 0 = 1 := by
  norm_num [linspace]

/-- **C8** amended (restricted to `N ≥ 2`, as forced by the `N = 1`
corner): `linspace lo hi N` has `N` entries, starts at `lo`, ends at
`hi`, has constant consecutive difference `(hi − lo)/(N − 1)`, and in
particular `linspace (−2) 2 5 = [−2, −1, 0, 1, 2]`. -/
theorem linspace_spec_amended (lo hi : ℚ) (N : ℕ) (hN : 2 ≤ N) :
    (linspace lo hi N).length = N ∧
    (linspace lo hi N).getD 0 0 = lo ∧
    (linspace lo hi N).getD (N - 1) 0 = hi ∧
    (∀ k, k + 1 < N →
      (linspace lo hi N).getD (k + 1) 0 - (linspace lo hi N).getD k 0
        = (hi - lo) / ((N : ℚ) - 1)) ∧
    linspace (-2) 2 5 = [-2, -1, 0, 1, 2] := by
  have hne : ((N : ℚ) - 1) ≠ 0 := by
    have h2 : (2 : ℚ) ≤ (N : ℚ) := by exact_mod_cast hN
    intro h0
    linarith
  have h5 : linspace (-2) 2 5 = [-2, -1, 0, 1, 2] := by
    rw [linspace, if_neg (by norm_num), if_neg (by norm_num),
      show List.range 5 = [0, 1, 2, 3, 4] from rfl]
    norm_num
  refine ⟨linspace_length lo hi N, ?_, ?_, ?_, h5⟩
  · rw [linspace_getD lo hi N 0 hN (by omega)]
    simp
  · rw [linspace_getD lo hi N (N - 1) hN (by omega)]
    have hcast : ((N - 1 : ℕ) : ℚ) = (N : ℚ) - 1 := by
      rw [Nat.cast_sub (by omega)]
      simp
    rw [hcast, mul_div_assoc, div_self hne, mul_one]
    ring
  · intro k hk
    rw [linspace_getD lo hi N (k + 1) hN (by omega),
      linspace_getD lo hi N k hN (by omega)]
    push_cast
    field_simp
    ring

/-- Concrete instance of C8 (amended) at `lo = −2`, `hi = 2`, `N = 5`,
consecutive pair `k = 1`. -/
theorem linspace_spec_amended_witness :
    (linspace (-2) 2 5).length = 5 ∧
    (linspace (-2) 2 5).getD 0 0 = -2 ∧
    (linspace (-2) 2 5).getD (5 - 1) 0 = 2 ∧
    (linspace (-2) 2 5).getD (1 + 1) 0 - (linspace (-2) 2 5).getD 1 0
      = ((2 : ℚ) - -2) / ((5 : ℚ) - 1) ∧
    linspace (-2) 2 5 = [-2, -1, 0, 1, 2] := by
  obtain ⟨h1, h2, h3, h4, h5⟩ := linspace_spec_amended (-2) 2 5 (by decide)
  exact ⟨h1, h2, h3, h4 1 (by decide), h5⟩

/-- **C9**: the pipeline (coordinate sequences, then the fill loop over
the grid) is a deterministic function of its configuration alone — two
runs with the same configuration agree, whatever matrix each run starts
from (the source starts from `np.zeros`, but no entry of the starting
matrix can influence the output). -/
theorem pipeline_deterministic (lo hi : ℚ) (w h M : ℕ)
    (init₁ init₂ : List (List ℕ))
    (h₁ : MatShape init₁ h w) (h₂ : MatShape init₂ h w) :
    pipeline lo hi w h M init₁ = pipeline lo hi w h M init₂ := by
  rw [pipeline_eq_escapeField lo hi w h M init₁ h₁,
    pipeline_eq_escapeField lo hi w h M init₂ h₂]

/-- Concrete instance of C9: a 2×2 run started from zeros and from a
matrix of garbage produce the same output. -/
theorem pipeline_deterministic_witness :
    MatShape (zerosMat 2 2) 2 2 ∧ MatShape [[7, 7], [7, 7]] 2 2 ∧
    pipeline (-1) 1 2 2 1 (zerosMat 2 2) = pipeline (-1) 1 2 2 1 [[7, 7], [7, 7]] :=
  have hg : MatShape [[7, 7], [7, 7]] 2 2 :=
    ⟨rfl, by intro j hj; interval_cases j <;> rfl⟩
  ⟨zerosMat_shape 2 2, hg,
    pipeline_deterministic (-1) 1 2 2 1 _ _ (zerosMat_shape 2 2) hg⟩

/-- **C10**: the escape time is invariant under complex conjugation,
and since both axes sample the symmetric interval `[−2, 2]`, the Escape
Field is mirror-symmetric across rows: entry `(j, i)` equals entry
`(height − 1 − j, i)`. -/
theorem conj_symmetry :
    (∀ (c : Cx) (M : ℕ), mandelbrot c.conj M = mandelbrot c M) ∧
    ∀ j < height, ∀ i < width,
      (mandelbrot_set.getD j []).getD i 0
        = (mandelbrot_set.getD (height - 1 - j) []).getD i 0 := by
  have hconj : ∀ (c : Cx) (M : ℕ), mandelbrot c.conj M = mandelbrot c M :=
    fun c M => mandelbrotLoop_conj c M c 0
  refine ⟨hconj, ?_⟩
  intro j hj i hi
  have hj' : height - 1 - j < height := by omega
  rw [mandelbrot_set_eq_escapeField,
    escapeField_getD x y max_iterations i j
      (by rw [x_length]; exact hi) (by rw [y_length]; exact hj),
    escapeField_getD x y max_iterations i (height - 1 - j)
      (by rw [x_length]; exact hi) (by rw [y_length]; exact hj')]
  have hy : y.getD (height - 1 - j) 0 = -(y.getD j 0) := by
    have h := linspace_symm 2 height j (by decide) hj
    simpa [y] using h
  rw [hy,
    show (Cx.mk (x.getD i 0) (-(y.getD j 0)))
        = (Cx.mk (x.getD i 0) (y.getD j 0)).conj from rfl,
    hconj]

/-- Concrete instance of C10 at `c = 1 + 1i`, `M = 3` and entry `(0, 0)`
against entry `(height − 1, 0)`. -/
theorem conj_symmetry_witness :
    mandelbrot (Cx.conj ⟨1, 1⟩) 3 = mandelbrot ⟨1, 1⟩ 3 ∧
    (mandelbrot_set.getD 0 []).getD 0 0
      = (mandelbrot_set.getD (height - 1 - 0) []).getD 0 0 :=
  ⟨conj_symmetry.1 ⟨1, 1⟩ 3, conj_symmetry.2 0 (by decide) 0 (by decide)⟩

end Mandel
